import Mathlib

/-!
Verification development for the silence-removal pipeline of
`remove-silence-v2.py` (with the shared parser also present in
`detect-silence-v2.py`).

Modelling conventions (shallow embedding):
* Python `str` values are modelled as `List Char`.
* Python `float` values parsed from the diagnostic text are modelled as `ℚ`:
  the code only copies, compares and prints these values, so exact rationals
  are a faithful model of the comparisons the code performs.
* `None` is modelled as `Option.none`; a Python exception is modelled with
  `Except`.
* The external `ffmpeg` engine is a black box: the diagnostic text it writes
  to stderr, and the success/failure of each `check=True` invocation, are
  inputs to the model.
-/

/-- Python `\s` for the characters that occur in practice
(space, tab, newline, carriage return, vertical tab, form feed). -/
def isSpaceB (c : Char) : Bool :=
  c = ' ' || c = '\t' || c = '\n' || c = '\r' || c = '\x0b' || c = '\x0c'

/-- The character class `[0-9\.]` of the three scraping regexes. -/
def isNumChar (c : Char) : Bool :=
  c.isDigit || c = '.'

/-- Model of `re.findall(marker + r":\s*([0-9\.]+)", text)` for the three
markers used by `detect_silence`.  At every position of the text: if the
literal marker starts here, skip whitespace and take the maximal run of
`[0-9.]` characters; a nonempty run is one extracted token.  Scanning then
continues at the next position, which matches the non-overlapping
left-to-right search of re.findall because none of the three markers can overlap itself
and a marker cannot begin inside the whitespace/number region (markers start
with `s`, which is neither whitespace nor in `[0-9.]`). -/
def findTokens (marker : List Char) : List Char → List (List Char)
  | [] => []
  | c :: cs =>
    (if marker.isPrefixOf (c :: cs) then
        let rest := ((c :: cs).drop marker.length).dropWhile isSpaceB
        let num := rest.takeWhile isNumChar
        if num.isEmpty then [] else [num]
      else []) ++ findTokens marker cs

/-- Whether the literal marker occurs anywhere in the text. -/
def containsMarker (marker : List Char) : List Char → Bool
  | [] => false
  | c :: cs => marker.isPrefixOf (c :: cs) || containsMarker marker cs

def startMarker : List Char := "silence_start:".data

def endMarker : List Char := "silence_end:".data

def durMarker : List Char := "silence_duration:".data

/-- Value of a run of decimal digits (the tokens only contain `[0-9.]`). -/
def digitsToNat (ds : List Char) : ℕ :=
  ds.foldl (fun n c => 10 * n + (c.toNat - 48)) 0

/-- Numeric value of a well-formed token `digits [. digits]`:
`intPart.fracPart` as the exact rational
`(intPart * 10 ^ k + fracPart) / 10 ^ k`. -/
def ratOfToken (t : List Char) : ℚ :=
  let intPart := t.takeWhile (fun c => c ≠ '.')
  let fracPart := t.drop (intPart.length + 1)
  mkRat (Int.ofNat (digitsToNat intPart * 10 ^ fracPart.length + digitsToNat fracPart))
    (10 ^ fracPart.length)

/-- Model of Python `float(token)` for a token drawn from `[0-9.]+`:
it succeeds exactly when the token has at most one dot and at least one
digit (`float("1.2.3")` and `float(".")` raise `ValueError`). -/
def pyFloatOfToken (t : List Char) : Option ℚ :=
  if t.count '.' ≤ 1 ∧ t.any Char.isDigit then Option.some (ratOfToken t) else Option.none

/-- The exception kinds the pipeline can raise:
`ValueError` from `float(...)` on a malformed token, and
`subprocess.CalledProcessError` from a `check=True` engine invocation. -/
inductive PyErr where
  | valueError
  | calledProcessError
deriving DecidableEq

deriving instance DecidableEq for Except

/-- Model of `float(tokens[i]) if i < len(tokens) else None`, with the
failure of `float` surfacing as a `ValueError`. -/
def optFloat : Option (List Char) → Except PyErr (Option ℚ)
  | Option.none => Except.ok Option.none
  | Option.some t =>
    match pyFloatOfToken t with
    | Option.some q => Except.ok (Option.some q)
    | Option.none => Except.error PyErr.valueError

/-- Model of `float(token)` on a token that is always present. -/
def reqFloat (t : List Char) : Except PyErr ℚ :=
  match pyFloatOfToken t with
  | Option.some q => Except.ok q
  | Option.none => Except.error PyErr.valueError

/-- One detected silence interval: the dict with keys start, end and
duration built by `detect_silence`. -/
structure SilenceInterval where
  start : Option ℚ
  end_ : ℚ
  duration : Option ℚ
deriving DecidableEq

/-- The row-building loop of `detect_silence`:
`for i in range(len(ends)): append {start, end, duration}` where `start`
and `duration` fall back to `None` past the end of their token lists. -/
def buildRows (starts durs : List (List Char)) : ℕ → List (List Char) → Except PyErr (List SilenceInterval)
  | _, [] => Except.ok []
  | i, e :: es => do
    let sv ← optFloat (starts.get? i)
    let ev ← reqFloat e
    let dv ← optFloat (durs.get? i)
    let rest ← buildRows starts durs (i + 1) es
    Except.ok (⟨sv, ev, dv⟩ :: rest)

/-- Embedding of `detect_silence`, as a function of the diagnostic text the engine wrote
to stderr.  The source inspects only `process.stderr`, never the exit
status, and builds one interval per `silence_end` token. -/
def detect_silence (stderr : List Char) : Except PyErr (List SilenceInterval) :=
  let starts := findTokens startMarker stderr
  let ends := findTokens endMarker stderr
  let durs := findTokens durMarker stderr
  buildRows starts durs 0 ends

/-- A segment kept by `remove_silence`: `(start, some end)` for
`trim=start=..:end=..`, and `(start, none)` for the open-ended trailing
`trim=start=..`. -/
abbrev Seg := ℚ × Option ℚ

/-- The segment-planning loop of `remove_silence`:
`last_end = 0; for start, end in zip(silence_starts, silence_ends): if
last_end < start: emit (last_end, start); last_end = end`, followed by the
unconditional open-ended trailing segment. -/
def planGo (lastEnd : ℚ) : List (ℚ × ℚ) → List Seg
  | [] => [(lastEnd, Option.none)]
  | (s, e) :: rest =>
    if lastEnd < s then (lastEnd, Option.some s) :: planGo e rest else planGo e rest

/-- The pairing `zip(silence_starts, silence_ends)` where
`silence_starts = [s['start'] for s in silence_info if s['start'] is not None]`
and `silence_ends = [s['end'] for s in silence_info]`. -/
def silencePairs (l : List SilenceInterval) : List (ℚ × ℚ) :=
  (l.filterMap SilenceInterval.start).zip (l.map SilenceInterval.end_)

/-- The full list of segments `remove_silence` trims and concatenates. -/
def planSegments (l : List SilenceInterval) : List Seg :=
  planGo 0 (silencePairs l)

/-- Membership of an instant in a (half-open) segment. -/
def segMem (t : ℚ) (q : Seg) : Prop :=
  q.1 ≤ t ∧ ∀ b, q.2 = Option.some b → t < b

/-- Segment `q` closes at a finite bound no later than the start of `q'`. -/
def segBefore (q q' : Seg) : Prop :=
  ∃ b, q.2 = Option.some b ∧ b ≤ q'.1

/-- A segment with a finite end is nonempty. -/
def segProper (q : Seg) : Prop :=
  ∀ b, q.2 = Option.some b → q.1 < b

instance (t : ℚ) (q : Seg) : Decidable (segMem t q) := by
  unfold segMem; infer_instance

instance (q q' : Seg) : Decidable (segBefore q q') := by
  unfold segBefore; cases h : q.2 <;> simp [h] <;> infer_instance

instance (q : Seg) : Decidable (segProper q) := by
  unfold segProper; cases h : q.2 <;> simp [h] <;> infer_instance

/-- Membership of an instant in a silence interval with a known start. -/
def silMem (t : ℚ) (s : SilenceInterval) : Prop :=
  ∃ a, s.start = Option.some a ∧ a ≤ t ∧ t < s.end_

instance (t : ℚ) (s : SilenceInterval) : Decidable (silMem t s) := by
  unfold silMem; cases h : s.start <;> simp [h] <;> infer_instance

/-- Intermediate stream labels of the filter graph.  The source writes them
as the strings `"v{i}"`, `"a{i}"`, `"outv"`, `"outa"`; distinct
(letter, index) pairs render to distinct strings, so they are modelled by
this inductive identity. -/
inductive Label where
  | v (i : ℕ)
  | a (i : ℕ)
  | outv
  | outa
deriving DecidableEq

/-- One `;`-separated chain of the `-filter_complex` expression.
Each trim chain carries its `setpts=PTS-STARTPTS` / `asetpts=PTS-STARTPTS`
timestamp reset as the `tsReset` flag; an `Option.none` end models the
open-ended trailing `trim=start=..` with no `end=`. -/
inductive FilterNode where
  | vtrim (start : ℚ) (stop : Option ℚ) (tsReset : Bool) (out : Label)
  | atrim (start : ℚ) (stop : Option ℚ) (tsReset : Bool) (out : Label)
  | vconcat (inputs : List Label) (n : ℕ) (out : Label)
  | aconcat (inputs : List Label) (n : ℕ) (out : Label)
deriving DecidableEq

/-- The graph-building loop of `remove_silence`, tracking `last_end` and
`segment_count`: for each zipped pair, when `last_end < start` append the
`[0:v]trim..[v{k}]` / `[0:a]atrim..[a{k}]` chain pair and bump the counter;
always advance `last_end`.  The base case is the unconditional trailing
open-ended pair.  Returns the trim chains and the final value of
`segment_count + 1`. -/
def trimLoop (lastEnd : ℚ) (k : ℕ) : List (ℚ × ℚ) → List FilterNode × ℕ
  | [] =>
    ([FilterNode.vtrim lastEnd Option.none true (Label.v k),
      FilterNode.atrim lastEnd Option.none true (Label.a k)], k + 1)
  | (s, e) :: rest =>
    if lastEnd < s then
      let r := trimLoop e (k + 1) rest
      (FilterNode.vtrim lastEnd (Option.some s) true (Label.v k)
        :: FilterNode.atrim lastEnd (Option.some s) true (Label.a k) :: r.1, r.2)
    else trimLoop e k rest

/-- The whole `-filter_complex` graph built by `remove_silence` for a
non-empty interval list: all trim chains, then
`[v0]..[v{n-1}]concat=n=..:v=1:a=0[outv]` and
`[a0]..[a{n-1}]concat=n=..:v=0:a=1[outa]`. -/
def removeSilenceGraph (l : List SilenceInterval) : List FilterNode :=
  let r := trimLoop 0 0 (silencePairs l)
  r.1 ++
    [FilterNode.vconcat ((List.range r.2).map Label.v) r.2 Label.outv,
     FilterNode.aconcat ((List.range r.2).map Label.a) r.2 Label.outa]

/-- What `remove_silence` does with the engine: `if not silence_info:` copy
the source unchanged, otherwise build the filter graph and execute it. -/
inductive RemoveAction where
  | copy
  | runGraph (g : List FilterNode)
deriving DecidableEq

/-- The control decision of `remove_silence`. -/
def removeSilenceAction (l : List SilenceInterval) : RemoveAction :=
  match l with
  | [] => RemoveAction.copy
  | _ :: _ => RemoveAction.runGraph (removeSilenceGraph l)

/-- The settings dict of `reencode_video`. -/
structure Settings where
  crf : String
  scale : String
  preset : String
  pix_fmt : String
  bitrate_audio : String
  timescale : String
deriving DecidableEq

/-- The base settings dict (also what the default `tiktok` preset uses). -/
def baseSettings : Settings :=
  { crf := "20", scale := "1080:1920", preset := "slow", pix_fmt := "yuv420p",
    bitrate_audio := "128k", timescale := "30000" }

/-- The `if preset == .. : settings.update(..)` chain of `reencode_video`:
each named preset overrides the named fields of the base dict, any other
name leaves the base dict untouched. -/
def reencodeSettings (p : String) : Settings :=
  if p = "highest" then
    { baseSettings with crf := "18", preset := "veryslow", timescale := "90000" }
  else if p = "youtube" then
    { baseSettings with scale := "1920:1080", crf := "21" }
  else if p = "facebook" then
    { baseSettings with crf := "22", scale := "1080:1350" }
  else if p = "instagram" then
    { baseSettings with scale := "1080:1350", crf := "21" }
  else baseSettings

/-- Split a list at the last occurrence of `ch`:
`some (pre, post)` with `l = pre ++ ch :: post` and `ch ∉ post`, or `none`
when `ch` does not occur. -/
def splitLast (ch : Char) : List Char → Option (List Char × List Char)
  | [] => Option.none
  | c :: cs =>
    match splitLast ch cs with
    | Option.some (pre, post) => Option.some (c :: pre, post)
    | Option.none => if c = ch then Option.some ([], cs) else Option.none

/-- Model of `os.path.splitext` for POSIX paths: find the last `/` and the
last `.`; split at the dot only if it lies in the basename and the basename
does not consist solely of leading dots up to it. -/
def splitextBase (p dir base : List Char) : List Char × List Char :=
  match splitLast '.' base with
  | Option.none => (p, [])
  | Option.some (pre, post) =>
    if pre.all (fun c => c = '.') then (p, [])
    else (dir ++ pre, '.' :: post)

def splitext (p : List Char) : List Char × List Char :=
  match splitLast '/' p with
  | Option.some (d, b) => splitextBase p (d ++ ['/']) b
  | Option.none => splitextBase p [] p

/-- The stage-1 output path of `remove_silence`:
the f-string of base, _removed_silence, ext. -/
def remove_silence_output_path (input : List Char) : List Char :=
  (splitext input).1 ++ "_removed_silence".data ++ (splitext input).2

/-- The output path of `reencode_video`: the f-string of base, preset, .mp4. -/
def reencode_output_path (input preset : List Char) : List Char :=
  (splitext input).1 ++ "_".data ++ preset ++ ".mp4".data

/-- The final output path of `process_video`: `reencode_video` is applied to
the `remove_silence` output, not to the original source. -/
def process_video_output_path (input preset : List Char) : List Char :=
  reencode_output_path (remove_silence_output_path input) preset

/-- Suffix test modelling `str.endswith`. -/
def endsWithC (suffix name : List Char) : Bool :=
  suffix.reverse.isPrefixOf name.reverse

/-- The eligibility test of `process_folder`:
lowercased name ends with .mp4, .mov or .mkv. -/
def eligibleName (name : List Char) : Bool :=
  let lower := name.map Char.toLower
  endsWithC ".mp4".data lower || endsWithC ".mov".data lower || endsWithC ".mkv".data lower

/-- One input file together with the behaviour of the black-box engine on
it: the exit code and stderr text of the (unchecked) detection invocation,
and whether the two `check=True` invocations (stage-1 trim/concat and
stage-2 re-encode) succeed. -/
structure FileJob where
  name : List Char
  exitCode : Int
  stderrText : List Char
  trimOk : Bool
  encodeOk : Bool
deriving DecidableEq

/-- Embedding of `process_video` for one file: detect (parsing may raise `ValueError`;
the detection exit code is never consulted), then `remove_silence` (the
copy path runs `cp` unchecked and cannot raise; the graph path raises
`CalledProcessError` when the engine fails), then `reencode_video`
(`check=True` again).  Returns the final output path. -/
def processVideo (preset : List Char) (j : FileJob) : Except PyErr (List Char) := do
  let info ← detect_silence j.stderrText
  match removeSilenceAction info with
  | RemoveAction.copy => pure ()
  | RemoveAction.runGraph _ =>
    if j.trimOk then pure () else Except.error PyErr.calledProcessError
  if j.encodeOk then
    Except.ok (process_video_output_path j.name preset)
  else Except.error PyErr.calledProcessError

/-- Outcome of a `process_folder` run: the final output paths produced, the
names of files whose `CalledProcessError` was caught and printed, and the
exception, if any, that escaped the loop and aborted the batch (everything
after it left unprocessed). -/
structure BatchResult where
  outputs : List (List Char)
  failures : List (List Char)
  aborted : Option PyErr
deriving DecidableEq

/-- Embedding of `process_folder`: for each eligible file run `process_video`, catching
only `subprocess.CalledProcessError`; any other exception propagates and
ends the whole loop. -/
def processFolder (preset : List Char) : List FileJob → BatchResult
  | [] => ⟨[], [], Option.none⟩
  | j :: rest =>
    if eligibleName j.name then
      match processVideo preset j with
      | Except.ok out =>
        let r := processFolder preset rest
        ⟨out :: r.outputs, r.failures, r.aborted⟩
      | Except.error PyErr.calledProcessError =>
        let r := processFolder preset rest
        ⟨r.outputs, j.name :: r.failures, r.aborted⟩
      | Except.error e => ⟨[], [], Option.some e⟩
    else processFolder preset rest

def isVTrim : FilterNode → Bool
  | FilterNode.vtrim _ _ _ _ => true
  | _ => false

def isATrim : FilterNode → Bool
  | FilterNode.atrim _ _ _ _ => true
  | _ => false

/-- Declared operand count of a concat node. -/
def concatWidth : FilterNode → Option ℕ
  | FilterNode.vconcat _ n _ => Option.some n
  | FilterNode.aconcat _ n _ => Option.some n
  | _ => Option.none

/-- Whether a trim node carries its timestamp reset; concat nodes have no
reset to carry. -/
def tsResetOf : FilterNode → Bool
  | FilterNode.vtrim _ _ r _ => r
  | FilterNode.atrim _ _ r _ => r
  | _ => true

def vtrimLabel : FilterNode → Option Label
  | FilterNode.vtrim _ _ _ lab => Option.some lab
  | _ => Option.none

def atrimLabel : FilterNode → Option Label
  | FilterNode.atrim _ _ _ lab => Option.some lab
  | _ => Option.none

/-- Preconditions of a single interval in the data model: a known start is
nonnegative and precedes the end. -/
def startOK (s : SilenceInterval) : Prop :=
  match s.start with
  | Option.none => True
  | Option.some a => 0 ≤ a ∧ a < s.end_

instance (s : SilenceInterval) : Decidable (startOK s) := by
  unfold startOK; cases s.start <;> infer_instance

/-- Known starts of two intervals are in order (vacuous when either is
absent). -/
def startLE (s t : SilenceInterval) : Prop :=
  match s.start, t.start with
  | Option.some a, Option.some b => a ≤ b
  | _, _ => True

instance (s t : SilenceInterval) : Decidable (startLE s t) := by
  unfold startLE; cases s.start <;> cases t.start <;> infer_instance

/-- Detection order of two intervals: ends non-decreasing and known starts
non-decreasing. -/
def intervalLE (s t : SilenceInterval) : Prop :=
  s.end_ ≤ t.end_ ∧ startLE s t

instance (s t : SilenceInterval) : Decidable (intervalLE s t) := by
  unfold intervalLE; infer_instance

/-- C1: on the silence-interval list `[{start: absent, end: 1.0},
{start: 3.0, end: 5.0}]` the claim (and Scenario C of the spec) expects the
segments `[(1.0, 3.0), (5.0, end-of-stream)]`.  The code instead filters the
absent start out of the start list and then zips it with the unfiltered end
list, mispairing start `3.0` with end `1.0`; it emits `[(0, 3.0),
(1.0, end-of-stream)]` — overlapping segments that retain the silence,
contradicting the stated purpose of the function, concatenating non-silent
segments. -/
theorem c1_zip_mispairing_bug :
    planSegments [⟨Option.none, 1, Option.none⟩, ⟨Option.some 3, 5, Option.none⟩]
      = [(0, Option.some 3), (1, Option.none)] ∧
    planSegments [⟨Option.none, 1, Option.none⟩, ⟨Option.some 3, 5, Option.none⟩]
      ≠ [(1, Option.some 3), (5, Option.none)] := by
  decide

/-- C2 counterexample: the list `[{start: absent, end: 1}, {start: 2,
end: 3}]` satisfies every data-model precondition (ends non-decreasing,
known starts in order and positive, start < end where present), yet the
planner emits the two distinct segments `(0, 2)` and `(1, end-of-stream)`
which both contain the instant `1` — the claimed pairwise non-overlap
fails. -/
theorem c2_overlap_counterexample :
    (∀ s ∈ [(⟨Option.none, 1, Option.none⟩ : SilenceInterval),
            ⟨Option.some 2, 3, Option.none⟩], startOK s) ∧
    List.Pairwise intervalLE [(⟨Option.none, 1, Option.none⟩ : SilenceInterval),
            ⟨Option.some 2, 3, Option.none⟩] ∧
    planSegments [⟨Option.none, 1, Option.none⟩, ⟨Option.some 2, 3, Option.none⟩]
      = [(0, Option.some 2), (1, Option.none)] ∧
    segMem 1 (0, Option.some 2) ∧ segMem 1 (1, Option.none) ∧
    ((0, Option.some 2) : Seg) ≠ (1, Option.none) := by
  decide

/-- C3 counterexample: for the diagnostic text
`"silence_start: 1.0 silence_end: 2.0 silence_end: 4.0"` there is one
"start" token against two "end" tokens.  The claim says the earliest
interval gets an absent start; the code pairs tokens positionally from the
front, so the earliest interval gets start `1.0` and it is the latest
interval whose start is absent. -/
theorem c3_earliest_start_counterexample :
    (findTokens startMarker "silence_start: 1.0 silence_end: 2.0 silence_end: 4.0".data).length = 1 ∧
    (findTokens endMarker "silence_start: 1.0 silence_end: 2.0 silence_end: 4.0".data).length = 2 ∧
    detect_silence "silence_start: 1.0 silence_end: 2.0 silence_end: 4.0".data
      = Except.ok [⟨Option.some 1, 2, Option.none⟩, ⟨Option.none, 4, Option.none⟩] := by
  decide

/-- C4 counterexample: for the non-empty interval list
`[{start: absent, end: 0}]` the planner produces exactly one segment
`(0, end-of-stream)` spanning the whole file, yet the pipeline does not
take the pass-through path: it builds and executes a degenerate graph whose
two concat nodes have operand count 1 (pass-through happens only for the
empty interval list). -/
theorem c4_one_segment_not_passthrough :
    planSegments [⟨Option.none, 0, Option.none⟩] = [(0, Option.none)] ∧
    removeSilenceAction [⟨Option.none, 0, Option.none⟩]
      = RemoveAction.runGraph (removeSilenceGraph [⟨Option.none, 0, Option.none⟩]) ∧
    removeSilenceAction [⟨Option.none, 0, Option.none⟩] ≠ RemoveAction.copy ∧
    (removeSilenceGraph [⟨Option.none, 0, Option.none⟩]).filterMap concatWidth = [1, 1] := by
  decide

/-- C6 counterexample: the diagnostic text `"silence_end: noise"` claims
silence occurred (the end marker is present) and yields zero numeric
tokens, yet the parser does not fail: it returns the empty interval list.
No ParseError exists anywhere in the code. -/
theorem c6_no_parse_error_counterexample :
    containsMarker endMarker "silence_end: noise".data = true ∧
    findTokens startMarker "silence_end: noise".data = [] ∧
    findTokens endMarker "silence_end: noise".data = [] ∧
    findTokens durMarker "silence_end: noise".data = [] ∧
    detect_silence "silence_end: noise".data = Except.ok [] := by
  decide

/-- C7 counterexample: in a batch of three eligible files where processing
file 2 fails in the parsing stage (its diagnostic text yields the token
`1.2.3`, on which `float` raises `ValueError`), the failure is not caught —
only `subprocess.CalledProcessError` is — so the batch aborts: file 1
produced output but file 3 was never processed, refuting "the driver
proceeds to process every remaining file unconditionally" for arbitrary
stage failures. -/
theorem c7_uncaught_failure_counterexample :
    processFolder "tiktok".data
        [⟨"a.mp4".data, 0, [], true, true⟩,
         ⟨"b.mp4".data, 0, "silence_end: 1.2.3".data, true, true⟩,
         ⟨"c.mp4".data, 0, [], true, true⟩]
      = ⟨["a_removed_silence_tiktok.mp4".data], [], Option.some PyErr.valueError⟩ ∧
    "c_removed_silence_tiktok.mp4".data ∉
      (processFolder "tiktok".data
        [⟨"a.mp4".data, 0, [], true, true⟩,
         ⟨"b.mp4".data, 0, "silence_end: 1.2.3".data, true, true⟩,
         ⟨"c.mp4".data, 0, [], true, true⟩]).outputs := by
  decide

/-- C9 counterexample: for source file `a.mov` and preset `tiktok` the
final output of the two-stage pipeline is
`a_removed_silence_tiktok.mp4` — stage 2 derives its stem from the stage-1
output, not from the source — and not `<source-stem>_<preset-name>` with
either the fixed `.mp4` container or the source container. -/
theorem c9_path_counterexample :
    process_video_output_path "a.mov".data "tiktok".data
      = "a_removed_silence_tiktok.mp4".data ∧
    process_video_output_path "a.mov".data "tiktok".data ≠ "a_tiktok.mp4".data ∧
    process_video_output_path "a.mov".data "tiktok".data ≠ "a_tiktok.mov".data := by
  decide

theorem exceptBind_ok {ε α β : Type _} (a : α) (f : α → Except ε β) :
    (Except.ok a >>= f : Except ε β) = f a := rfl

theorem exceptBind_error {ε α β : Type _} (e : ε) (f : α → Except ε β) :
    ((Except.error e : Except ε α) >>= f) = Except.error e := rfl

theorem optFloat_ok_none (o : Option (List Char)) (v : Option ℚ)
    (h : optFloat o = Except.ok v) : (v = Option.none ↔ o = Option.none) := by
  cases o with
  | none =>
    simp only [optFloat] at h
    cases h
    simp
  | some t =>
    simp only [optFloat] at h
    cases hp : pyFloatOfToken t with
    | none => rw [hp] at h; cases h
    | some q => rw [hp] at h; cases h; simp

/-- Success characterization of the row-building loop: one row per end
token, and the `start` / `duration` of the row at offset `k` is absent
exactly when the corresponding token list has run out at position
`i + k`. -/
theorem buildRows_ok_spec (starts durs : List (List Char)) :
    ∀ (es : List (List Char)) (i : ℕ) (rows : List SilenceInterval),
      buildRows starts durs i es = Except.ok rows →
      rows.length = es.length ∧
      ∀ k (hk : k < rows.length),
        ((rows.get ⟨k, hk⟩).start = Option.none ↔ starts.length ≤ i + k) ∧
        ((rows.get ⟨k, hk⟩).duration = Option.none ↔ durs.length ≤ i + k) := by
  intro es
  induction es with
  | nil =>
    intro i rows h
    simp only [buildRows] at h
    cases h
    exact ⟨rfl, fun k hk => absurd hk (by simp)⟩
  | cons e es ih =>
    intro i rows h
    simp only [buildRows] at h
    cases hs : optFloat (starts.get? i) with
    | error err => rw [hs, exceptBind_error] at h; cases h
    | ok sv =>
    rw [hs, exceptBind_ok] at h
    cases he : reqFloat e with
    | error err => rw [he, exceptBind_error] at h; cases h
    | ok ev =>
    rw [he, exceptBind_ok] at h
    cases hd : optFloat (durs.get? i) with
    | error err => rw [hd, exceptBind_error] at h; cases h
    | ok dv =>
    rw [hd, exceptBind_ok] at h
    cases hr : buildRows starts durs (i + 1) es with
    | error err => rw [hr, exceptBind_error] at h; cases h
    | ok rest =>
    rw [hr, exceptBind_ok] at h
    cases h
    obtain ⟨ihlen, ihidx⟩ := ih (i + 1) rest hr
    refine ⟨by simp [ihlen], ?_⟩
    intro k hk
    cases k with
    | zero =>
      constructor
      · simpa using (optFloat_ok_none _ _ hs).trans List.get?_eq_none
      · simpa using (optFloat_ok_none _ _ hd).trans List.get?_eq_none
    | succ k =>
      have hk' : k < rest.length := by simpa using hk
      have := ihidx k hk'
      have harith : i + 1 + k = i + (k + 1) := by omega
      rw [harith] at this
      simpa using this

/-- With no `silence_end` token the loop never runs, so no `float` is ever
called: the parser returns the empty list without failing. -/
theorem detect_silence_of_no_end_tokens (s : List Char)
    (h : findTokens endMarker s = []) : detect_silence s = Except.ok [] := by
  unfold detect_silence
  rw [h]
  rfl

/-- A text with no occurrence of the marker yields no tokens for it. -/
theorem findTokens_of_not_containsMarker (marker : List Char) :
    ∀ s : List Char, containsMarker marker s = false → findTokens marker s = [] := by
  intro s
  induction s with
  | nil => intro _; rfl
  | cons c cs ih =>
    intro h
    simp only [containsMarker, Bool.or_eq_false_iff] at h
    simp only [findTokens, h.1, if_false, List.nil_append]
    exact ih h.2

/-- C3 (amended): the parser produces exactly one interval per
`silence_end` token, and start and duration tokens pair positionally from
the front of the list — so when there are fewer "start" tokens than "end"
tokens it is the latest interval(s) of the output, not the earliest, whose
`start` is absent; durations behave the same way. -/
theorem c3_parser_positional (s : List Char) (rows : List SilenceInterval)
    (h : detect_silence s = Except.ok rows) :
    rows.length = (findTokens endMarker s).length ∧
    ∀ k (hk : k < rows.length),
      ((rows.get ⟨k, hk⟩).start = Option.none ↔ (findTokens startMarker s).length ≤ k) ∧
      ((rows.get ⟨k, hk⟩).duration = Option.none ↔ (findTokens durMarker s).length ≤ k) := by
  have := buildRows_ok_spec (findTokens startMarker s) (findTokens durMarker s)
    (findTokens endMarker s) 0 rows h
  simpa using this

/-- Witness for `c3_parser_positional` at a concrete diagnostic text with
one start token and two end tokens. -/
theorem c3_parser_positional_witness :
    ([⟨Option.some 1, 2, Option.none⟩, ⟨Option.none, 3, Option.none⟩] :
        List SilenceInterval).length
      = (findTokens endMarker "silence_start: 1 silence_end: 2 silence_end: 3".data).length ∧
    ∀ k (hk : k < ([⟨Option.some 1, 2, Option.none⟩, ⟨Option.none, 3, Option.none⟩] :
        List SilenceInterval).length),
      ((([⟨Option.some 1, 2, Option.none⟩, ⟨Option.none, 3, Option.none⟩] :
          List SilenceInterval).get ⟨k, hk⟩).start = Option.none ↔
        (findTokens startMarker "silence_start: 1 silence_end: 2 silence_end: 3".data).length ≤ k) ∧
      ((([⟨Option.some 1, 2, Option.none⟩, ⟨Option.none, 3, Option.none⟩] :
          List SilenceInterval).get ⟨k, hk⟩).duration = Option.none ↔
        (findTokens durMarker "silence_start: 1 silence_end: 2 silence_end: 3".data).length ≤ k) :=
  c3_parser_positional "silence_start: 1 silence_end: 2 silence_end: 3".data
    [⟨Option.some 1, 2, Option.none⟩, ⟨Option.none, 3, Option.none⟩] (by decide)

/-- C6 (amended): the parser has no ParseError path at all.  For every
input from which zero `silence_end` tokens are extracted — including inputs
that claim silence occurred but yield no numeric token — it returns the
empty interval list without failing; a failure (a `ValueError` from
`float`) can only happen when at least one end token was extracted. -/
theorem c6_parser_total_without_end_tokens (s : List Char)
    (h : findTokens endMarker s = []) :
    detect_silence s = Except.ok [] ∧ ∀ e, detect_silence s ≠ Except.error e := by
  have hok := detect_silence_of_no_end_tokens s h
  exact ⟨hok, fun e hc => by rw [hok] at hc; cases hc⟩

/-- Witness for `c6_parser_total_without_end_tokens` at an input that
contains the end marker but no numeric token after it. -/
theorem c6_parser_total_without_end_tokens_witness :
    detect_silence "silence_end: x".data = Except.ok [] ∧
    ∀ e, detect_silence "silence_end: x".data ≠ Except.error e :=
  c6_parser_total_without_end_tokens "silence_end: x".data (by decide)

/-- C10: when the detection stderr contains no `silence_end` marker — in
particular when the engine invocation failed and produced only error text —
`detect_silence` returns the empty interval list; the exit status is never
consulted (the result of `process_video` is unchanged under any exit code),
the file takes the pass-through copy path, and the file is never recorded
as a detection failure: `process_video` still produces its final output
whenever the stage-2 encode succeeds, and can never raise the parsing
error. -/
theorem c10_detection_failure_passthrough (preset : List Char) (j : FileJob)
    (h : containsMarker endMarker j.stderrText = false) :
    detect_silence j.stderrText = Except.ok [] ∧
    (∀ rc : Int, processVideo preset { j with exitCode := rc } = processVideo preset j) ∧
    removeSilenceAction [] = RemoveAction.copy ∧
    (j.encodeOk = true → processVideo preset j = Except.ok (process_video_output_path j.name preset)) ∧
    processVideo preset j ≠ Except.error PyErr.valueError := by
  have hok : detect_silence j.stderrText = Except.ok [] :=
    detect_silence_of_no_end_tokens _ (findTokens_of_not_containsMarker _ _ h)
  have hrun : processVideo preset j =
      if j.encodeOk = true then Except.ok (process_video_output_path j.name preset)
      else Except.error PyErr.calledProcessError := by
    unfold processVideo
    rw [hok]
    rfl
  refine ⟨hok, fun rc => rfl, rfl, fun henc => by rw [hrun, if_pos henc], ?_⟩
  rw [hrun]
  split <;> simp

/-- Witness for `c10_detection_failure_passthrough`: an engine run that
failed (exit code 1, pure error text on stderr, stage-1 trim would fail
too) still yields the final output. -/
theorem c10_detection_failure_passthrough_witness :
    detect_silence "ffmpeg: no such file".data = Except.ok [] ∧
    (∀ rc : Int, processVideo "tiktok".data
        { (⟨"a.mp4".data, 1, "ffmpeg: no such file".data, false, true⟩ : FileJob) with
            exitCode := rc }
      = processVideo "tiktok".data ⟨"a.mp4".data, 1, "ffmpeg: no such file".data, false, true⟩) ∧
    removeSilenceAction [] = RemoveAction.copy ∧
    ((⟨"a.mp4".data, 1, "ffmpeg: no such file".data, false, true⟩ : FileJob).encodeOk = true →
      processVideo "tiktok".data ⟨"a.mp4".data, 1, "ffmpeg: no such file".data, false, true⟩
        = Except.ok (process_video_output_path "a.mp4".data "tiktok".data)) ∧
    processVideo "tiktok".data ⟨"a.mp4".data, 1, "ffmpeg: no such file".data, false, true⟩
      ≠ Except.error PyErr.valueError :=
  c10_detection_failure_passthrough "tiktok".data
    ⟨"a.mp4".data, 1, "ffmpeg: no such file".data, false, true⟩ (by decide)

/-- C8: looking up any name outside the enumerated preset set returns the
base default record unchanged, and each registered preset overrides exactly
its named fields (`tiktok` overrides none), leaving every other field equal
to the base default, field for field. -/
theorem c8_preset_registry :
    (∀ p : String, p ≠ "tiktok" → p ≠ "highest" → p ≠ "youtube" → p ≠ "facebook" →
      p ≠ "instagram" → reencodeSettings p = baseSettings) ∧
    reencodeSettings "tiktok" = baseSettings ∧
    ((reencodeSettings "highest").crf = "18" ∧
      (reencodeSettings "highest").preset = "veryslow" ∧
      (reencodeSettings "highest").timescale = "90000" ∧
      (reencodeSettings "highest").scale = baseSettings.scale ∧
      (reencodeSettings "highest").pix_fmt = baseSettings.pix_fmt ∧
      (reencodeSettings "highest").bitrate_audio = baseSettings.bitrate_audio) ∧
    ((reencodeSettings "youtube").scale = "1920:1080" ∧
      (reencodeSettings "youtube").crf = "21" ∧
      (reencodeSettings "youtube").preset = baseSettings.preset ∧
      (reencodeSettings "youtube").pix_fmt = baseSettings.pix_fmt ∧
      (reencodeSettings "youtube").bitrate_audio = baseSettings.bitrate_audio ∧
      (reencodeSettings "youtube").timescale = baseSettings.timescale) ∧
    ((reencodeSettings "facebook").crf = "22" ∧
      (reencodeSettings "facebook").scale = "1080:1350" ∧
      (reencodeSettings "facebook").preset = baseSettings.preset ∧
      (reencodeSettings "facebook").pix_fmt = baseSettings.pix_fmt ∧
      (reencodeSettings "facebook").bitrate_audio = baseSettings.bitrate_audio ∧
      (reencodeSettings "facebook").timescale = baseSettings.timescale) ∧
    ((reencodeSettings "instagram").scale = "1080:1350" ∧
      (reencodeSettings "instagram").crf = "21" ∧
      (reencodeSettings "instagram").preset = baseSettings.preset ∧
      (reencodeSettings "instagram").pix_fmt = baseSettings.pix_fmt ∧
      (reencodeSettings "instagram").bitrate_audio = baseSettings.bitrate_audio ∧
      (reencodeSettings "instagram").timescale = baseSettings.timescale) := by
  refine ⟨?_, by decide, by decide, by decide, by decide, by decide⟩
  intro p h1 h2 h3 h4 h5
  simp [reencodeSettings, h2, h3, h4, h5]

/-- Witness for `c8_preset_registry`: the unregistered name `"x264"` falls
back to the base default record. -/
theorem c8_preset_registry_witness : reencodeSettings "x264" = baseSettings :=
  c8_preset_registry.1 "x264" (by decide) (by decide) (by decide) (by decide) (by decide)

/-- C4 (amended): the pipeline takes the pass-through copy path exactly
when the silence-interval list is empty; in that case the planner produces
exactly one segment spanning the whole file, `(0, end-of-stream)`.  A
non-empty interval list is always executed through the concat graph, even
when it yields a single whole-file segment. -/
theorem c4_passthrough_iff_empty :
    (∀ l : List SilenceInterval, removeSilenceAction l = RemoveAction.copy ↔ l = []) ∧
    planSegments [] = [(0, Option.none)] := by
  refine ⟨?_, by decide⟩
  intro l
  cases l with
  | nil => simp [removeSilenceAction]
  | cons s rest => simp [removeSilenceAction]

/-- Witness for `c4_passthrough_iff_empty` at concrete interval lists. -/
theorem c4_passthrough_iff_empty_witness :
    removeSilenceAction [] = RemoveAction.copy ∧
    removeSilenceAction [⟨Option.some 1, 2, Option.none⟩] ≠ RemoveAction.copy :=
  ⟨(c4_passthrough_iff_empty.1 []).mpr rfl,
    fun h => by cases (c4_passthrough_iff_empty.1 [⟨Option.some 1, 2, Option.none⟩]).mp h⟩

/-- C7 (amended): the per-file isolation holds for engine-invocation
failures only.  When no eligible file raises the (uncatchable here)
parsing `ValueError`, the batch never aborts: every eligible file is
attempted, files whose `CalledProcessError` was caught are recorded in
order, and every other eligible file contributes its final output —
failures of other kinds would instead propagate and abort the batch (see
the counterexample). -/
theorem c7_cpe_isolated (preset : List Char) :
    ∀ jobs : List FileJob,
      (∀ j ∈ jobs, eligibleName j.name = true →
        processVideo preset j ≠ Except.error PyErr.valueError) →
      (processFolder preset jobs).aborted = Option.none ∧
      (processFolder preset jobs).outputs
        = jobs.filterMap (fun j => if eligibleName j.name = true
            then (processVideo preset j).toOption else Option.none) ∧
      (processFolder preset jobs).failures
        = jobs.filterMap (fun j => if eligibleName j.name = true ∧
            processVideo preset j = Except.error PyErr.calledProcessError
            then Option.some j.name else Option.none) := by
  intro jobs
  induction jobs with
  | nil => intro _; exact ⟨rfl, rfl, rfl⟩
  | cons j rest ih =>
    intro h
    obtain ⟨ha, ho, hf⟩ := ih (fun k hk => h k (List.mem_cons_of_mem _ hk))
    by_cases he : eligibleName j.name = true
    · cases hv : processVideo preset j with
      | ok out =>
        simp only [processFolder, if_pos he, hv]
        refine ⟨ha, ?_, ?_⟩
        · simp [List.filterMap_cons, he, hv, Except.toOption, ho]
        · simp [List.filterMap_cons, he, hv, hf]
      | error e =>
        cases e with
        | valueError => exact absurd hv (h j (List.mem_cons_self _ _) he)
        | calledProcessError =>
          simp only [processFolder, if_pos he, hv]
          refine ⟨ha, ?_, ?_⟩
          · simp [List.filterMap_cons, he, hv, Except.toOption, ho]
          · simp [List.filterMap_cons, he, hv, hf]
    · simp only [processFolder, if_neg he]
      refine ⟨ha, ?_, ?_⟩
      · simp [List.filterMap_cons, he, ho]
      · simp [List.filterMap_cons, he, hf]

/-- Scenario D of the spec: three eligible files where the stage-2
engine invocation fails. -/
def scenarioDJobs : List FileJob :=
  [⟨"a.mp4".data, 0, [], true, true⟩,
   ⟨"b.mp4".data, 0, [], true, false⟩,
   ⟨"c.mp4".data, 0, [], true, true⟩]

/-- Witness for `c7_cpe_isolated` on Scenario D: files 1 and 3 produce
final outputs, file 2 is recorded as failed and absent from the outputs. -/
theorem c7_cpe_isolated_witness :
    (∀ j ∈ scenarioDJobs, eligibleName j.name = true →
      processVideo "tiktok".data j ≠ Except.error PyErr.valueError) ∧
    ((processFolder "tiktok".data scenarioDJobs).aborted = Option.none ∧
      (processFolder "tiktok".data scenarioDJobs).outputs
        = scenarioDJobs.filterMap (fun j => if eligibleName j.name = true
            then (processVideo "tiktok".data j).toOption else Option.none) ∧
      (processFolder "tiktok".data scenarioDJobs).failures
        = scenarioDJobs.filterMap (fun j => if eligibleName j.name = true ∧
            processVideo "tiktok".data j = Except.error PyErr.calledProcessError
            then Option.some j.name else Option.none)) ∧
    processFolder "tiktok".data scenarioDJobs
      = ⟨["a_removed_silence_tiktok.mp4".data, "c_removed_silence_tiktok.mp4".data],
         ["b.mp4".data], Option.none⟩ :=
  ⟨by decide, c7_cpe_isolated "tiktok".data scenarioDJobs (by decide), by decide⟩

def isVConcat : FilterNode → Bool
  | FilterNode.vconcat _ _ _ => true
  | _ => false

def isAConcat : FilterNode → Bool
  | FilterNode.aconcat _ _ _ => true
  | _ => false

/-- The trim chains emitted for a segment list, labelled from index `k`:
one video chain and one audio chain per segment, in order. -/
def trimNodesOf (k : ℕ) : List Seg → List FilterNode
  | [] => []
  | q :: qs =>
    FilterNode.vtrim q.1 q.2 true (Label.v k)
      :: FilterNode.atrim q.1 q.2 true (Label.a k)
      :: trimNodesOf (k + 1) qs

/-- The graph-building loop emits exactly one video/audio trim-chain pair
per planned segment, with consecutive labels, and its final counter is the
number of planned segments. -/
theorem trimLoop_eq : ∀ (ps : List (ℚ × ℚ)) (c : ℚ) (k : ℕ),
    trimLoop c k ps = (trimNodesOf k (planGo c ps), k + (planGo c ps).length) := by
  intro ps
  induction ps with
  | nil => intro c k; rfl
  | cons p rest ih =>
    intro c k
    obtain ⟨s, e⟩ := p
    by_cases hcs : c < s
    · simp only [trimLoop, planGo, if_pos hcs, ih e (k + 1), trimNodesOf]
      refine Prod.ext rfl ?_
      simp
      omega
    · simp only [trimLoop, planGo, if_neg hcs, ih e k]

/-- The graph of `remove_silence`, re-expressed segmentwise. -/
theorem removeSilenceGraph_eq (l : List SilenceInterval) :
    removeSilenceGraph l
      = trimNodesOf 0 (planSegments l)
        ++ [FilterNode.vconcat ((List.range (planSegments l).length).map Label.v)
              (planSegments l).length Label.outv,
            FilterNode.aconcat ((List.range (planSegments l).length).map Label.a)
              (planSegments l).length Label.outa] := by
  unfold removeSilenceGraph planSegments
  rw [trimLoop_eq]
  simp

theorem trimNodesOf_filter_vtrim : ∀ (qs : List Seg) (k : ℕ),
    ((trimNodesOf k qs).filter isVTrim).length = qs.length := by
  intro qs
  induction qs with
  | nil => intro k; rfl
  | cons q qs ih => intro k; simp [trimNodesOf, isVTrim, List.filter_cons, ih (k + 1)]

theorem trimNodesOf_filter_atrim : ∀ (qs : List Seg) (k : ℕ),
    ((trimNodesOf k qs).filter isATrim).length = qs.length := by
  intro qs
  induction qs with
  | nil => intro k; rfl
  | cons q qs ih => intro k; simp [trimNodesOf, isATrim, List.filter_cons, ih (k + 1)]

theorem trimNodesOf_vtrimLabel : ∀ (qs : List Seg) (k : ℕ),
    (trimNodesOf k qs).filterMap vtrimLabel = (List.range' k qs.length).map Label.v := by
  intro qs
  induction qs with
  | nil => intro k; rfl
  | cons q qs ih =>
    intro k
    simp [trimNodesOf, vtrimLabel, List.filterMap_cons, ih (k + 1), List.range'_succ]

theorem trimNodesOf_atrimLabel : ∀ (qs : List Seg) (k : ℕ),
    (trimNodesOf k qs).filterMap atrimLabel = (List.range' k qs.length).map Label.a := by
  intro qs
  induction qs with
  | nil => intro k; rfl
  | cons q qs ih =>
    intro k
    simp [trimNodesOf, atrimLabel, List.filterMap_cons, ih (k + 1), List.range'_succ]

theorem trimNodesOf_tsReset : ∀ (qs : List Seg) (k : ℕ),
    ∀ n ∈ trimNodesOf k qs, tsResetOf n = true := by
  intro qs
  induction qs with
  | nil => intro k n hn; cases hn
  | cons q qs ih =>
    intro k n hn
    simp only [trimNodesOf, List.mem_cons] at hn
    rcases hn with h | h | h
    · rw [h]; rfl
    · rw [h]; rfl
    · exact ih (k + 1) n h

theorem trimNodesOf_filter_vconcat : ∀ (qs : List Seg) (k : ℕ),
    (trimNodesOf k qs).filter isVConcat = [] := by
  intro qs
  induction qs with
  | nil => intro k; rfl
  | cons q qs ih => intro k; simp [trimNodesOf, isVConcat, List.filter_cons, ih (k + 1)]

theorem trimNodesOf_filter_aconcat : ∀ (qs : List Seg) (k : ℕ),
    (trimNodesOf k qs).filter isAConcat = [] := by
  intro qs
  induction qs with
  | nil => intro k; rfl
  | cons q qs ih => intro k; simp [trimNodesOf, isAConcat, List.filter_cons, ih (k + 1)]

theorem label_v_injective : Function.Injective Label.v := by
  intro a b h
  injection h

theorem label_a_injective : Function.Injective Label.a := by
  intro a b h
  injection h

/-- C5: for a planner output of length N ≥ 2, the built graph has exactly
N video-trim chains and N audio-trim chains, every trim chain carries its
timestamp reset, the video trim chains produce exactly the labels
`v0..v(N-1)` in order (pairwise distinct, so each is produced exactly
once) and the audio chains likewise `a0..a(N-1)`, and the graph contains
exactly one video-only concat and exactly one audio-only concat, each with
operand count N, consuming exactly those label lists (so each intermediate
label is consumed exactly once). -/
theorem c5_graph_shape (l : List SilenceInterval)
    (h2 : 2 ≤ (planSegments l).length) :
    ((removeSilenceGraph l).filter isVTrim).length = (planSegments l).length ∧
    ((removeSilenceGraph l).filter isATrim).length = (planSegments l).length ∧
    (∀ n ∈ removeSilenceGraph l, tsResetOf n = true) ∧
    (removeSilenceGraph l).filterMap vtrimLabel
      = (List.range (planSegments l).length).map Label.v ∧
    (removeSilenceGraph l).filterMap atrimLabel
      = (List.range (planSegments l).length).map Label.a ∧
    ((List.range (planSegments l).length).map Label.v).Nodup ∧
    ((List.range (planSegments l).length).map Label.a).Nodup ∧
    (removeSilenceGraph l).filter isVConcat
      = [FilterNode.vconcat ((List.range (planSegments l).length).map Label.v)
          (planSegments l).length Label.outv] ∧
    (removeSilenceGraph l).filter isAConcat
      = [FilterNode.aconcat ((List.range (planSegments l).length).map Label.a)
          (planSegments l).length Label.outa] := by
  rw [removeSilenceGraph_eq]
  refine ⟨?_, ?_, ?_, ?_, ?_, ?_, ?_, ?_, ?_⟩
  · simp [List.filter_append, trimNodesOf_filter_vtrim, isVTrim]
  · simp [List.filter_append, trimNodesOf_filter_atrim, isATrim]
  · intro n hn
    rcases List.mem_append.mp hn with h | h
    · exact trimNodesOf_tsReset _ _ n h
    · rcases List.mem_cons.mp h with h1 | h1
      · rw [h1]; rfl
      · rcases List.mem_cons.mp h1 with h2 | h2
        · rw [h2]; rfl
        · cases h2
  · simp [List.filterMap_append, trimNodesOf_vtrimLabel, vtrimLabel, List.range_eq_range']
  · simp [List.filterMap_append, trimNodesOf_atrimLabel, atrimLabel, List.range_eq_range']
  · exact (List.nodup_range _).map label_v_injective
  · exact (List.nodup_range _).map label_a_injective
  · simp [List.filter_append, trimNodesOf_filter_vconcat, isVConcat, List.filter_cons]
  · simp [List.filter_append, trimNodesOf_filter_aconcat, isAConcat, List.filter_cons]

/-- Witness for `c5_graph_shape` at the Scenario A interval list, whose plan
has the two segments `(0, 2)` and `(4, end-of-stream)`. -/
theorem c5_graph_shape_witness :
    2 ≤ (planSegments [⟨Option.some 2, 4, Option.some 2⟩]).length ∧
    (((removeSilenceGraph [⟨Option.some 2, 4, Option.some 2⟩]).filter isVTrim).length
        = (planSegments [⟨Option.some 2, 4, Option.some 2⟩]).length ∧
      ((removeSilenceGraph [⟨Option.some 2, 4, Option.some 2⟩]).filter isATrim).length
        = (planSegments [⟨Option.some 2, 4, Option.some 2⟩]).length ∧
      (∀ n ∈ removeSilenceGraph [⟨Option.some 2, 4, Option.some 2⟩], tsResetOf n = true) ∧
      (removeSilenceGraph [⟨Option.some 2, 4, Option.some 2⟩]).filterMap vtrimLabel
        = (List.range (planSegments [⟨Option.some 2, 4, Option.some 2⟩]).length).map Label.v ∧
      (removeSilenceGraph [⟨Option.some 2, 4, Option.some 2⟩]).filterMap atrimLabel
        = (List.range (planSegments [⟨Option.some 2, 4, Option.some 2⟩]).length).map Label.a ∧
      ((List.range (planSegments [⟨Option.some 2, 4, Option.some 2⟩]).length).map Label.v).Nodup ∧
      ((List.range (planSegments [⟨Option.some 2, 4, Option.some 2⟩]).length).map Label.a).Nodup ∧
      (removeSilenceGraph [⟨Option.some 2, 4, Option.some 2⟩]).filter isVConcat
        = [FilterNode.vconcat
            ((List.range (planSegments [⟨Option.some 2, 4, Option.some 2⟩]).length).map Label.v)
            (planSegments [⟨Option.some 2, 4, Option.some 2⟩]).length Label.outv] ∧
      (removeSilenceGraph [⟨Option.some 2, 4, Option.some 2⟩]).filter isAConcat
        = [FilterNode.aconcat
            ((List.range (planSegments [⟨Option.some 2, 4, Option.some 2⟩]).length).map Label.a)
            (planSegments [⟨Option.some 2, 4, Option.some 2⟩]).length Label.outa]) :=
  ⟨by decide, c5_graph_shape [⟨Option.some 2, 4, Option.some 2⟩] (by decide)⟩

/-- Every segment the loop emits starts at or after the incoming cursor
(the cursor only moves forward to interval ends that bound it from
above). -/
theorem planGo_start_ge : ∀ (ps : List (ℚ × ℚ)) (c : ℚ),
    (∀ p ∈ ps, c ≤ p.2) →
    List.Pairwise (fun p q : ℚ × ℚ => p.2 ≤ q.2) ps →
    ∀ q ∈ planGo c ps, c ≤ q.1 := by
  intro ps
  induction ps with
  | nil =>
    intro c _ _ q hq
    simp only [planGo, List.mem_singleton] at hq
    rw [hq]
  | cons p rest ih =>
    intro c hle hpair q hq
    obtain ⟨s, e⟩ := p
    have hce : c ≤ e := hle (s, e) (List.mem_cons_self _ _)
    rw [List.pairwise_cons] at hpair
    have hee : ∀ p ∈ rest, e ≤ p.2 := hpair.1
    by_cases hcs : c < s
    · simp only [planGo, if_pos hcs, List.mem_cons] at hq
      rcases hq with h | h
      · rw [h]
      · exact le_trans hce (ih e hee hpair.2 q h)
    · simp only [planGo, if_neg hcs] at hq
      exact le_trans hce (ih e hee hpair.2 q hq)

/-- Under the data-model preconditions the emitted segments are in time
order (each closes no later than the next opens) and every closed segment
is nonempty. -/
theorem planGo_sorted : ∀ (ps : List (ℚ × ℚ)) (c : ℚ),
    (∀ p ∈ ps, c ≤ p.2) →
    List.Pairwise (fun p q : ℚ × ℚ => p.1 ≤ q.1 ∧ p.2 ≤ q.2) ps →
    (∀ p ∈ ps, p.1 < p.2) →
    List.Pairwise segBefore (planGo c ps) ∧ ∀ q ∈ planGo c ps, segProper q := by
  intro ps
  induction ps with
  | nil =>
    intro c _ _ _
    refine ⟨List.pairwise_singleton _ _, ?_⟩
    intro q hq
    simp only [planGo, List.mem_singleton] at hq
    rw [hq]
    intro b hb
    cases hb
  | cons p rest ih =>
    intro c hle hpair hlt
    obtain ⟨s, e⟩ := p
    have hce : c ≤ e := hle (s, e) (List.mem_cons_self _ _)
    have hse : s < e := hlt (s, e) (List.mem_cons_self _ _)
    rw [List.pairwise_cons] at hpair
    have hee : ∀ p ∈ rest, e ≤ p.2 := fun p hp => (hpair.1 p hp).2
    have hrest := ih e hee hpair.2 (fun p hp => hlt p (List.mem_cons_of_mem _ hp))
    by_cases hcs : c < s
    · simp only [planGo, if_pos hcs]
      constructor
      · rw [List.pairwise_cons]
        refine ⟨?_, hrest.1⟩
        intro q hq
        refine ⟨s, rfl, ?_⟩
        exact le_trans (le_of_lt hse) (planGo_start_ge rest e hee
          (hpair.2.imp (fun h => h.2)) q hq)
      · intro q hq
        rcases List.mem_cons.mp hq with h | h
        · rw [h]
          intro b hb
          cases hb
          exact hcs
        · exact hrest.2 q h
    · simp only [planGo, if_neg hcs]
      exact hrest

/-- Every instant from the cursor onward lies in an emitted segment or in
one of the (known-start) silence spans. -/
theorem planGo_cover : ∀ (ps : List (ℚ × ℚ)) (c : ℚ) (t : ℚ), c ≤ t →
    (∃ q ∈ planGo c ps, segMem t q) ∨ (∃ p ∈ ps, p.1 ≤ t ∧ t < p.2) := by
  intro ps
  induction ps with
  | nil =>
    intro c t hct
    left
    refine ⟨(c, Option.none), List.mem_singleton_self _, hct, ?_⟩
    intro b hb
    cases hb
  | cons p rest ih =>
    intro c t hct
    obtain ⟨s, e⟩ := p
    by_cases hcs : c < s
    · simp only [planGo, if_pos hcs]
      by_cases hts : t < s
      · left
        refine ⟨(c, Option.some s), List.mem_cons_self _ _, hct, ?_⟩
        intro b hb
        cases hb
        exact hts
      · by_cases hte : t < e
        · right
          exact ⟨(s, e), List.mem_cons_self _ _, le_of_not_lt hts, hte⟩
        · rcases ih e t (le_of_not_lt hte) with ⟨q, hq, hmem⟩ | ⟨p, hp, hmem⟩
          · exact Or.inl ⟨q, List.mem_cons_of_mem _ hq, hmem⟩
          · exact Or.inr ⟨p, List.mem_cons_of_mem _ hp, hmem⟩
    · simp only [planGo, if_neg hcs]
      by_cases hte : t < e
      · right
        exact ⟨(s, e), List.mem_cons_self _ _, le_trans (le_of_not_lt hcs) hct, hte⟩
      · rcases ih e t (le_of_not_lt hte) with ⟨q, hq, hmem⟩ | ⟨p, hp, hmem⟩
        · exact Or.inl ⟨q, hq, hmem⟩
        · exact Or.inr ⟨p, List.mem_cons_of_mem _ hp, hmem⟩

/-- Under the data-model preconditions no instant of an emitted segment
lies inside any silence span. -/
theorem planGo_disjoint : ∀ (ps : List (ℚ × ℚ)) (c : ℚ),
    (∀ p ∈ ps, c ≤ p.2) →
    List.Pairwise (fun p q : ℚ × ℚ => p.1 ≤ q.1 ∧ p.2 ≤ q.2) ps →
    (∀ p ∈ ps, p.1 < p.2) →
    ∀ q ∈ planGo c ps, ∀ p ∈ ps, ∀ t, segMem t q → ¬(p.1 ≤ t ∧ t < p.2) := by
  intro ps
  induction ps with
  | nil =>
    intro c _ _ _ q _ p hp
    cases hp
  | cons hd rest ih =>
    intro c hle hpair hlt q hq p hp t hmem
    obtain ⟨s, e⟩ := hd
    rw [List.pairwise_cons] at hpair
    have hee : ∀ p ∈ rest, e ≤ p.2 := fun p h => (hpair.1 p h).2
    have hrestlt : ∀ p ∈ rest, p.1 < p.2 := fun p h => hlt p (List.mem_cons_of_mem _ h)
    by_cases hcs : c < s
    · simp only [planGo, if_pos hcs, List.mem_cons] at hq
      rcases hq with hq | hq
      · have hts : t < s := by
          rw [hq] at hmem
          exact hmem.2 s rfl
        rcases List.mem_cons.mp hp with h | h
        · rw [h]
          exact fun hc => absurd hts (not_lt_of_le hc.1)
        · exact fun hc => absurd hts
            (not_lt_of_le (le_trans (hpair.1 p h).1 hc.1))
      · have het : e ≤ t :=
          le_trans (planGo_start_ge rest e hee (hpair.2.imp (fun h => h.2)) q hq) hmem.1
        rcases List.mem_cons.mp hp with h | h
        · rw [h]
          exact fun hc => absurd hc.2 (not_lt_of_le het)
        · exact ih e hee hpair.2 hrestlt q hq p h t hmem
    · simp only [planGo, if_neg hcs] at hq
      have het : e ≤ t :=
        le_trans (planGo_start_ge rest e hee (hpair.2.imp (fun h => h.2)) q hq) hmem.1
      rcases List.mem_cons.mp hp with h | h
      · rw [h]
        exact fun hc => absurd hc.2 (not_lt_of_le het)
      · exact ih e hee hpair.2 hrestlt q hq p h t hmem

/-- When every interval has a known start, the dubious
`zip(filtered starts, all ends)` degenerates to the straightforward
per-interval pairing. -/
theorem silencePairs_of_all_some : ∀ (l : List SilenceInterval),
    (∀ s ∈ l, s.start ≠ Option.none) →
    silencePairs l = l.map (fun s => (s.start.getD 0, s.end_)) := by
  intro l
  induction l with
  | nil => intro _; rfl
  | cons s rest ih =>
    intro hall
    have hs : s.start ≠ Option.none := hall s (List.mem_cons_self _ _)
    obtain ⟨a, ha⟩ := Option.ne_none_iff_exists'.mp hs
    have ihr := ih (fun u hu => hall u (List.mem_cons_of_mem _ hu))
    simp only [silencePairs, List.filterMap_cons, List.map_cons, ha] at *
    simp [List.zip_cons_cons, ihr, ha]

/-- C2 (amended): restricted to interval lists in which every interval has
a known start — the absent-start case trips the start/end mispairing shown
in the counterexample — and which satisfy the data-model preconditions
(known starts nonnegative and before their ends, detection order: starts
and ends non-decreasing), the planned segments are in time order, every
closed segment is nonempty, and every instant of the file timeline from 0
on lies in exactly one of: an emitted segment, or a silence interval.  In
particular the segments are pairwise non-overlapping and, together with
the silence intervals, cover the timeline exactly once. -/
theorem c2_planSegments_partition (l : List SilenceInterval)
    (hall : ∀ s ∈ l, s.start ≠ Option.none)
    (hok : ∀ s ∈ l, startOK s)
    (hsort : List.Pairwise intervalLE l) :
    List.Pairwise segBefore (planSegments l) ∧
    (∀ q ∈ planSegments l, segProper q) ∧
    ∀ t : ℚ, 0 ≤ t →
      ((∃ q ∈ planSegments l, segMem t q) ↔ ¬∃ s ∈ l, silMem t s) := by
  have hpairs := silencePairs_of_all_some l hall
  have hstart : ∀ s ∈ l, ∃ a, s.start = Option.some a ∧ 0 ≤ a ∧ a < s.end_ := by
    intro s hs
    obtain ⟨a, ha⟩ := Option.ne_none_iff_exists'.mp (hall s hs)
    have := hok s hs
    rw [startOK, ha] at this
    exact ⟨a, ha, this⟩
  have hle0 : ∀ p ∈ silencePairs l, (0 : ℚ) ≤ p.2 := by
    rw [hpairs]
    intro p hp
    obtain ⟨s, hs, rfl⟩ := List.mem_map.mp hp
    obtain ⟨a, _, h0, hae⟩ := hstart s hs
    exact le_of_lt (lt_of_le_of_lt h0 hae)
  have hlt : ∀ p ∈ silencePairs l, p.1 < p.2 := by
    rw [hpairs]
    intro p hp
    obtain ⟨s, hs, rfl⟩ := List.mem_map.mp hp
    obtain ⟨a, ha, _, hae⟩ := hstart s hs
    simpa [ha] using hae
  have hpair : List.Pairwise (fun p q : ℚ × ℚ => p.1 ≤ q.1 ∧ p.2 ≤ q.2) (silencePairs l) := by
    rw [hpairs, List.pairwise_map]
    refine hsort.imp_of_mem ?_
    intro u v hu hv huv
    obtain ⟨a, ha, _, _⟩ := hstart u hu
    obtain ⟨b, hb, _, _⟩ := hstart v hv
    refine ⟨?_, huv.1⟩
    have h2 := huv.2
    rw [startLE, ha, hb] at h2
    simp only [ha, hb, Option.getD_some]
    exact h2
  have hmemiff : ∀ t : ℚ,
      ((∃ s ∈ l, silMem t s) ↔ ∃ p ∈ silencePairs l, p.1 ≤ t ∧ t < p.2) := by
    intro t
    rw [hpairs]
    constructor
    · rintro ⟨s, hs, a, ha, hat, hte⟩
      exact ⟨(s.start.getD 0, s.end_), List.mem_map.mpr ⟨s, hs, rfl⟩,
        by simpa [ha] using hat, hte⟩
    · rintro ⟨p, hp, h1, h2⟩
      obtain ⟨s, hs, rfl⟩ := List.mem_map.mp hp
      obtain ⟨a, ha, _, _⟩ := hstart s hs
      exact ⟨s, hs, a, ha, by simpa [ha] using h1, h2⟩
  have hs := planGo_sorted (silencePairs l) 0 hle0 hpair hlt
  refine ⟨hs.1, hs.2, ?_⟩
  intro t ht
  constructor
  · rintro ⟨q, hq, hqt⟩ hsil
    obtain ⟨p, hp, hmem⟩ := (hmemiff t).mp hsil
    exact planGo_disjoint (silencePairs l) 0 hle0 hpair hlt q hq p hp t hqt hmem
  · intro hnot
    rcases planGo_cover (silencePairs l) 0 t ht with h | h
    · exact h
    · exact absurd ((hmemiff t).mpr h) hnot

/-- Witness for `c2_planSegments_partition` at the Scenario A interval list
`[{start: 2, end: 4, duration: 2}]`. -/
theorem c2_planSegments_partition_witness :
    (∀ s ∈ [(⟨Option.some 2, 4, Option.some 2⟩ : SilenceInterval)], s.start ≠ Option.none) ∧
    (∀ s ∈ [(⟨Option.some 2, 4, Option.some 2⟩ : SilenceInterval)], startOK s) ∧
    List.Pairwise intervalLE [(⟨Option.some 2, 4, Option.some 2⟩ : SilenceInterval)] ∧
    (List.Pairwise segBefore (planSegments [⟨Option.some 2, 4, Option.some 2⟩]) ∧
      (∀ q ∈ planSegments [⟨Option.some 2, 4, Option.some 2⟩], segProper q) ∧
      ∀ t : ℚ, 0 ≤ t →
        ((∃ q ∈ planSegments [⟨Option.some 2, 4, Option.some 2⟩], segMem t q) ↔
          ¬∃ s ∈ [(⟨Option.some 2, 4, Option.some 2⟩ : SilenceInterval)], silMem t s)) :=
  ⟨by decide, by decide, by decide,
    c2_planSegments_partition [⟨Option.some 2, 4, Option.some 2⟩]
      (by decide) (by decide) (by decide)⟩

theorem splitLast_eq_none (ch : Char) : ∀ l : List Char, ch ∉ l →
    splitLast ch l = Option.none := by
  intro l
  induction l with
  | nil => intro _; rfl
  | cons c cs ih =>
    intro h
    have hne : ¬(c = ch) := fun hc => h (by simp [hc])
    have hcs : ch ∉ cs := fun hc => h (List.mem_cons_of_mem _ hc)
    simp only [splitLast, ih hcs, if_neg hne]

theorem not_mem_of_splitLast_eq_none (ch : Char) : ∀ l : List Char,
    splitLast ch l = Option.none → ch ∉ l := by
  intro l
  induction l with
  | nil => intro _ h; cases h
  | cons c cs ih =>
    intro h hmem
    cases hrec : splitLast ch cs with
    | some pq => rw [splitLast, hrec] at h; cases h
    | none =>
      rw [splitLast, hrec] at h
      by_cases hc : c = ch
      · rw [if_pos hc] at h; cases h
      · rcases List.mem_cons.mp hmem with h1 | h1
        · exact hc h1.symm
        · exact ih hrec h1

theorem splitLast_eq_some (ch : Char) : ∀ (l pre post : List Char),
    splitLast ch l = Option.some (pre, post) →
    l = pre ++ ch :: post ∧ ch ∉ post := by
  intro l
  induction l with
  | nil => intro pre post h; cases h
  | cons c cs ih =>
    intro pre post h
    cases hrec : splitLast ch cs with
    | some pq =>
      obtain ⟨p, q⟩ := pq
      rw [splitLast, hrec] at h
      injection h with h1
      injection h1 with h2 h3
      obtain ⟨hcs, hq⟩ := ih p q hrec
      subst h2
      subst h3
      exact ⟨by rw [hcs]; rfl, hq⟩
    | none =>
      rw [splitLast, hrec] at h
      by_cases hc : c = ch
      · rw [if_pos hc] at h
        injection h with h1
        injection h1 with h2 h3
        subst h2
        subst h3
        exact ⟨by rw [hc]; rfl, not_mem_of_splitLast_eq_none ch cs hrec⟩
      · rw [if_neg hc] at h
        cases h

theorem splitLast_append_cons (ch : Char) : ∀ (xs post : List Char), ch ∉ post →
    splitLast ch (xs ++ ch :: post) = Option.some (xs, post) := by
  intro xs
  induction xs with
  | nil =>
    intro post h
    simp [splitLast, splitLast_eq_none ch post h]
  | cons c cs ih =>
    intro post h
    rw [List.cons_append]
    simp only [splitLast]
    rw [ih post h]

theorem splitLast_append_free (ch : Char) : ∀ (xs m : List Char), ch ∉ m →
    splitLast ch (xs ++ m)
      = (splitLast ch xs).map (fun pq => (pq.1, pq.2 ++ m)) := by
  intro xs
  induction xs with
  | nil =>
    intro m h
    simp only [List.nil_append, splitLast, splitLast_eq_none ch m h, Option.map_none']
  | cons c cs ih =>
    intro m h
    rw [List.cons_append]
    simp only [splitLast]
    rw [ih m h]
    cases hrec : splitLast ch cs with
    | some pq => simp
    | none =>
      by_cases hc : c = ch
      · simp [if_pos hc]
      · simp [if_neg hc]

/-- Appending a separator-free, dot-free, not-all-dots middle part `m` to
the stem of any split path re-splits at the same extension:
`splitext(stem ++ m ++ ext) = (stem ++ m, ext)`. -/
theorem splitext_append (p m b e : List Char) (hsp : splitext p = (b, e))
    (hms : ('/' : Char) ∉ m) (hmd : ('.' : Char) ∉ m)
    (hmall : m.all (fun c => c = '.') = false) :
    splitext (b ++ m ++ e) = (b ++ m, e) := by
  unfold splitext at hsp
  cases hsep : splitLast '/' p with
  | none =>
    rw [hsep] at hsp
    have hsp1 : splitextBase p [] p = (b, e) := hsp
    unfold splitextBase at hsp1
    have hp : ('/' : Char) ∉ p := not_mem_of_splitLast_eq_none '/' p hsep
    cases hdot : splitLast '.' p with
    | none =>
      rw [hdot] at hsp1
      have hsp2 : ((p, []) : List Char × List Char) = (b, e) := hsp1
      injection hsp2 with h1 h2
      subst h1
      subst h2
      rw [List.append_nil]
      unfold splitext
      rw [splitLast_append_free '/' p m hms, hsep]
      show splitextBase (p ++ m) [] (p ++ m) = (p ++ m, [])
      unfold splitextBase
      rw [splitLast_append_free '.' p m hmd, hdot]
      rfl
    | some prepost =>
      obtain ⟨pre, post⟩ := prepost
      rw [hdot] at hsp1
      obtain ⟨hpeq, hpost⟩ := splitLast_eq_some '.' p pre post hdot
      have hsp2 : (if pre.all (fun c => c = '.') then ((p, []) : List Char × List Char)
          else ([] ++ pre, '.' :: post)) = (b, e) := hsp1
      by_cases hall : pre.all (fun c => c = '.') = true
      · rw [if_pos hall] at hsp2
        injection hsp2 with h1 h2
        subst h1
        subst h2
        rw [List.append_nil]
        unfold splitext
        rw [splitLast_append_free '/' p m hms, hsep]
        show splitextBase (p ++ m) [] (p ++ m) = (p ++ m, [])
        unfold splitextBase
        rw [splitLast_append_free '.' p m hmd, hdot]
        simp only [Option.map_some']
        show (if pre.all (fun c => c = '.') then ((p ++ m, []) : List Char × List Char)
          else ([] ++ pre, '.' :: (post ++ m))) = (p ++ m, [])
        rw [if_pos hall]
      · rw [if_neg hall] at hsp2
        injection hsp2 with h1 h2
        subst h1
        subst h2
        rw [hpeq] at hp
        have hpre_s : ('/' : Char) ∉ pre := fun hc => hp (List.mem_append.mpr (Or.inl hc))
        have hpost_s : ('/' : Char) ∉ post :=
          fun hc => hp (List.mem_append.mpr (Or.inr (List.mem_cons_of_mem _ hc)))
        have hw : ('/' : Char) ∉ (([] ++ pre) ++ m) ++ '.' :: post := by
          intro hc
          rcases List.mem_append.mp hc with h1 | h1
          · rcases List.mem_append.mp h1 with h2 | h2
            · exact hpre_s (by simpa using h2)
            · exact hms h2
          · rcases List.mem_cons.mp h1 with h3 | h3
            · exact absurd h3 (by decide)
            · exact hpost_s h3
        unfold splitext
        rw [splitLast_eq_none '/' _ hw]
        show splitextBase _ [] ((([] ++ pre) ++ m) ++ '.' :: post) = _
        unfold splitextBase
        rw [splitLast_append_cons '.' (([] ++ pre) ++ m) post hpost]
        have hallf : ((([] ++ pre) ++ m).all (fun c => c = '.')) = false := by
          rw [List.all_append, hmall]
          simp
        show (if (([] ++ pre) ++ m).all (fun c => c = '.') then _
          else ([] ++ (([] ++ pre) ++ m), '.' :: post))
          = (([] ++ pre) ++ m, '.' :: post)
        rw [if_neg (by rw [hallf]; exact Bool.false_ne_true)]
        simp
  | some db =>
    obtain ⟨d, base⟩ := db
    rw [hsep] at hsp
    have hsp1 : splitextBase p (d ++ ['/']) base = (b, e) := hsp
    unfold splitextBase at hsp1
    obtain ⟨hpeq, hbase_s⟩ := splitLast_eq_some '/' p d base hsep
    cases hdot : splitLast '.' base with
    | none =>
      rw [hdot] at hsp1
      have hsp2 : ((p, []) : List Char × List Char) = (b, e) := hsp1
      injection hsp2 with h1 h2
      subst h1
      subst h2
      rw [List.append_nil]
      unfold splitext
      rw [splitLast_append_free '/' p m hms, hsep]
      simp only [Option.map_some']
      show splitextBase (p ++ m) (d ++ ['/']) (base ++ m) = (p ++ m, [])
      unfold splitextBase
      rw [splitLast_append_free '.' base m hmd, hdot]
      rfl
    | some prepost =>
      obtain ⟨pre, post⟩ := prepost
      rw [hdot] at hsp1
      obtain ⟨hbeq, hpost⟩ := splitLast_eq_some '.' base pre post hdot
      have hsp2 : (if pre.all (fun c => c = '.') then ((p, []) : List Char × List Char)
          else ((d ++ ['/']) ++ pre, '.' :: post)) = (b, e) := hsp1
      by_cases hall : pre.all (fun c => c = '.') = true
      · rw [if_pos hall] at hsp2
        injection hsp2 with h1 h2
        subst h1
        subst h2
        rw [List.append_nil]
        unfold splitext
        rw [splitLast_append_free '/' p m hms, hsep]
        simp only [Option.map_some']
        show splitextBase (p ++ m) (d ++ ['/']) (base ++ m) = (p ++ m, [])
        unfold splitextBase
        rw [splitLast_append_free '.' base m hmd, hdot]
        simp only [Option.map_some']
        show (if pre.all (fun c => c = '.') then ((p ++ m, []) : List Char × List Char)
          else ((d ++ ['/']) ++ pre, '.' :: (post ++ m))) = (p ++ m, [])
        rw [if_pos hall]
      · rw [if_neg hall] at hsp2
        injection hsp2 with h1 h2
        subst h1
        subst h2
        rw [hbeq] at hbase_s
        have hpre_s : ('/' : Char) ∉ pre := fun hc => hbase_s (List.mem_append.mpr (Or.inl hc))
        have hpost_s : ('/' : Char) ∉ post :=
          fun hc => hbase_s (List.mem_append.mpr (Or.inr (List.mem_cons_of_mem _ hc)))
        have h1 : ((((d ++ ['/']) ++ pre) ++ m) ++ '.' :: post : List Char)
            = d ++ '/' :: ((pre ++ m) ++ '.' :: post) := by
          simp
        rw [h1]
        have hfree : ('/' : Char) ∉ (pre ++ m) ++ '.' :: post := by
          intro hc
          rcases List.mem_append.mp hc with h2 | h2
          · rcases List.mem_append.mp h2 with h3 | h3
            · exact hpre_s h3
            · exact hms h3
          · rcases List.mem_cons.mp h2 with h4 | h4
            · exact absurd h4 (by decide)
            · exact hpost_s h4
        unfold splitext
        rw [splitLast_append_cons '/' d _ hfree]
        show splitextBase _ (d ++ ['/']) ((pre ++ m) ++ '.' :: post) = _
        unfold splitextBase
        rw [splitLast_append_cons '.' (pre ++ m) post hpost]
        have hallf : ((pre ++ m).all (fun c => c = '.')) = false := by
          rw [List.all_append, hmall]
          simp
        show (if (pre ++ m).all (fun c => c = '.') then _
          else ((d ++ ['/']) ++ (pre ++ m), '.' :: post))
          = ((((d ++ ['/']) ++ pre) ++ m : List Char), '.' :: post)
        rw [if_neg (by rw [hallf]; exact Bool.false_ne_true)]
        simp

/-- C9 (amended): for every source file and preset name, the final output
of the two-stage pipeline is
`<source-stem>_removed_silence_<preset-name>.mp4`: stage 2 derives its stem
from the stage-1 output `<source-stem>_removed_silence<source-ext>`, so the
source stem gains the fixed `_removed_silence_` infix, and the container is
always `.mp4` regardless of the source container. -/
theorem c9_final_output_path (input preset : List Char) :
    process_video_output_path input preset
      = (splitext input).1 ++ "_removed_silence_".data ++ preset ++ ".mp4".data := by
  unfold process_video_output_path reencode_output_path remove_silence_output_path
  have h := splitext_append input "_removed_silence".data (splitext input).1
    (splitext input).2 rfl (by decide) (by decide) (by decide)
  rw [h]
  have hm : ("_removed_silence".data ++ "_".data : List Char) = "_removed_silence_".data := by
    decide
  simp only [List.append_assoc]
  rw [← List.append_assoc "_removed_silence".data "_".data, hm]
